import Mathlib

/-!
Verification development for the stringify-structured layout engine
(src/index.ts). Strings are modelled as lists of characters; the
JavaScript number Infinity used for the wrap width is modelled by an
optional natural number, with comparison against the absent bound being
false exactly as a finite number compared against Infinity is.
-/

/-- A JavaScript string, modelled as its sequence of characters. -/
abbrev Str := List Char

/-- Coerce a Lean string literal to the model of JavaScript strings. -/
def strOf (s : String) : Str := s.data

/-- The wrap width option: a finite column count, or absent for Infinity. -/
abbrev Width := Option Nat

/-- The comparison `n > wrapWidth` from the source; a finite number is
never greater than Infinity. -/
def widthExceeded (n : Nat) : Width → Bool
  | none => false
  | some w => decide (w < n)

/-- The result of rendering a node: `isMultiline` and `content`
(interface RenderResult of the source). -/
structure RenderResult where
  isMultiline : Bool
  content : Str
deriving DecidableEq, Repr

/-- The render context passed down the recursion (interface RenderParams
of the source, minus the render callback which the embedding replaces by
direct recursion). -/
structure RenderCtx where
  wrapWidth : Width
  indent : Str
  indentIncrement : Str
deriving DecidableEq, Repr

/-- The ECMAScript whitespace class used by the trim operations and the
\s regex class: WhiteSpace (tab, vertical tab, form feed, space,
no-break space, zero-width no-break space and the Unicode Space
Separators) together with the LineTerminator characters. -/
def isWS (c : Char) : Bool :=
  c = ' ' || c = '\t' || c = '\n' || c = '\r' || c = Char.ofNat 11 || c = Char.ofNat 12 ||
  c = Char.ofNat 160 || c = Char.ofNat 5760 ||
  (Char.ofNat 8192 ≤ c && c ≤ Char.ofNat 8202) ||
  c = Char.ofNat 8232 || c = Char.ofNat 8233 || c = Char.ofNat 8239 ||
  c = Char.ofNat 8287 || c = Char.ofNat 12288 || c = Char.ofNat 65279

/-- JavaScript String.prototype.trimStart. -/
def trimL (s : Str) : Str := s.dropWhile isWS

/-- JavaScript String.prototype.trimEnd. -/
def trimR (s : Str) : Str := (s.reverse.dropWhile isWS).reverse

/-- JavaScript String.prototype.trim. -/
def trimB (s : Str) : Str := trimR (trimL s)

/-- Split a character list at every occurrence of the character `c`.
Always returns at least one piece. -/
def splitOnChar (c : Char) : Str → List Str
  | [] => [[]]
  | x :: xs =>
    if x = c then [] :: splitOnChar c xs
    else
      match splitOnChar c xs with
      | [] => [[x]]
      | l :: ls => (x :: l) :: ls

/-- Apply `f` to every element of a list except the last one. -/
def mapInit (f : α → α) : List α → List α
  | [] => []
  | [a] => [a]
  | a :: b :: rest => f a :: mapInit f (b :: rest)

/-- Remove a single trailing carriage return, if present. -/
def dropTrailingCR (s : Str) : Str :=
  match s.reverse with
  | '\r' :: rest => rest.reverse
  | _ => s

/-- The line split `text.split(/\r?\n/g)` of the source: split at every
newline, a carriage return immediately before a newline being consumed
with it. -/
def splitLines (s : Str) : List Str :=
  mapInit dropTrailingCR (splitOnChar '\n' s)

/-- Count of leading space characters of a line: `line.match(/^ */)[0].length`. -/
def indentOfLine (l : Str) : Nat := (l.takeWhile (fun c => c = ' ')).length

/-- The blank-line test `/^\s*$/g.test(l)` of the source. -/
def isBlankLine (l : Str) : Bool := l.all isWS

/-- Total version of the template interpolation: concatenate the literal
fragments with the interpolated pieces placed between consecutive
fragments. Agrees with the fallible source `interpolate` whenever there
is exactly one more fragment than interpolation. -/
def interpolateT : List Str → List Str → Str
  | [], _ => []
  | s :: _, [] => s
  | s :: ss, i :: is => s ++ i ++ interpolateT ss is

/-- The fallible `interpolate` of the source: requires at least one
fragment, consumes (interpolation, fragment) pairs, and fails when the
iterators do not finish together. -/
def interpolateGo (acc : Str) : List Str → List Str → Except String Str
  | [], [] => .ok acc
  | s :: ss, i :: is => interpolateGo (acc ++ i ++ s) ss is
  | _, _ => .error "A tagged template expects exactly one more string than interpolation value"

/-- Entry point of the fallible `interpolate` of the source. -/
def interpolateE (strings interps : List Str) : Except String Str :=
  match strings with
  | [] => .error "Expected at least one interpolated string"
  | s0 :: rest => interpolateGo s0 rest interps

/-- The minimum leading-space count used by the text node: Math.min over
the leading-space counts of the non-blank remaining lines, the empty
minimum (Infinity) being replaced by zero through the isFinite check. -/
def minIndentSize (restLines : List Str) : Nat :=
  match (restLines.filter (fun l => !isBlankLine l)).map indentOfLine with
  | [] => 0
  | n :: ns => ns.foldl Nat.min n

/-- The ECMAScript LineTerminator characters, after which the multiline
anchor of `new RegExp('^' + minIndent, 'gm')` matches again. -/
def isLineTerminator (c : Char) : Bool :=
  c = '\n' || c = '\r' || c = Char.ofNat 8232 || c = Char.ofNat 8233

/-- Split a string at its line terminators, each terminator kept at the
end of its segment; a trailing (possibly empty) segment follows the last
terminator. The segment starts are exactly the positions at which the
multiline anchor matches. -/
def lineSegs : Str → List Str
  | [] => [[]]
  | c :: cs =>
    if isLineTerminator c then [c] :: lineSegs cs
    else
      match lineSegs cs with
      | [] => [[c]]
      | s :: ss => (c :: s) :: ss

/-- One anchored replacement of `new RegExp('^' + minIndent, 'gm')`: if
the segment starts with `min` spaces, that prefix is replaced by the
context indent, otherwise the segment is unchanged. -/
def reindentSeg (min : Nat) (indent : Str) (seg : Str) : Str :=
  if seg.take min = List.replicate min ' ' then indent ++ seg.drop min else seg

/-- The re-indentation `l.replace(new RegExp('^' + minIndent, 'gm'), indent)`
of one remaining line: because of the m flag the anchored replacement
applies at the start of the line and again after every line-terminator
character (such as a lone carriage return) surviving inside the line. -/
def reindentLine (min : Nat) (indent : Str) (l : Str) : Str :=
  ((lineSegs l).map (reindentSeg min indent)).flatten

/-- Render of a text node over its assembled content string
(the body of `text` in the source). -/
def textCore (s : Str) (ctx : RenderCtx) : RenderResult :=
  match splitLines s with
  | firstLine :: l1 :: ls =>
    let restLines := l1 :: ls
    let min := minIndentSize restLines
    let reIndentedLines := firstLine :: restLines.map (reindentLine min ctx.indent)
    { isMultiline := true, content := (List.intersperse (strOf "\n") reIndentedLines).flatten }
  | _ => { isMultiline := false, content := s }

/-- Render of a block node given the already-rendered interpolated
children (the body of `block` in the source; the children are rendered
by the caller at the child indent). -/
def blockCore (strings : List Str) (rendered : List RenderResult) (ctx : RenderCtx) : RenderResult :=
  let childIndent := ctx.indent ++ ctx.indentIncrement
  let singleLineLength := (strings.map List.length).sum + (rendered.map (fun r => r.content.length)).sum
  let isMultiline :=
    rendered.any (fun r => r.isMultiline) ||
    widthExceeded (ctx.indent.length + singleLineLength) ctx.wrapWidth ||
    strings.any (fun s => s.contains '\n')
  let content :=
    if isMultiline then
      interpolateT
        (match strings with
         | [] => []
         | s0 :: rest =>
           trimB s0 :: rest.map (fun s =>
             let t := trimB s
             if t = [] then t else '\n' :: (ctx.indent ++ t)))
        (rendered.map (fun r => '\n' :: (childIndent ++ trimB r.content)))
    else
      interpolateT strings (rendered.map (fun r => r.content))
  { isMultiline := isMultiline, content := content }

/-- Render of an inline node given the already-rendered children
(the body of `inline` in the source; children are rendered by the caller
at the same indent). -/
def inlineCore (strings : List Str) (rendered : List RenderResult) (ctx : RenderCtx) : RenderResult :=
  let singleLineLength := (strings.map List.length).sum + (rendered.map (fun r => r.content.length)).sum
  let isMultiline :=
    rendered.any (fun r => r.isMultiline) ||
    widthExceeded (ctx.indent.length + singleLineLength) ctx.wrapWidth ||
    strings.any (fun s => s.contains '\n')
  { isMultiline := isMultiline, content := interpolateT strings (rendered.map (fun r => r.content)) }

/-- Code-unit comparison of strings, the order behind the JavaScript
`a.content > b.content` comparator. -/
def strLt : Str → Str → Bool
  | [], [] => false
  | [], _ :: _ => true
  | _ :: _, [] => false
  | a :: as, b :: bs => a < b || (a = b && strLt as bs)

/-- Non-strict string comparison derived from `strLt`. -/
def strLe (a b : Str) : Bool := !(strLt b a)

/-- Stable insertion of a rendered item into a list sorted by content. -/
def insertSorted (a : RenderResult) : List RenderResult → List RenderResult
  | [] => [a]
  | b :: bs => if strLe a.content b.content then a :: b :: bs else b :: insertSorted a bs

/-- The stable sort-by-rendered-content of the source
`renderedItems.sort((a, b) => a.content > b.content ? 1 : a.content === b.content ? 0 : -1)`;
JavaScript Array.prototype.sort is a stable sort by the comparator. -/
def sortByContent : List RenderResult → List RenderResult
  | [] => []
  | a :: as => insertSorted a (sortByContent as)

/-- Render of a list node given the already-rendered items
(the body of `list` in the source; items are rendered by the caller at
the same indent). -/
def listCore (joiner : Str) (sort : Bool) (renderedItems : List RenderResult) (ctx : RenderCtx) :
    RenderResult :=
  let items := if sort then sortByContent renderedItems else renderedItems
  let singleLineLength :=
    (items.map (fun r => r.content.length)).sum + joiner.length * (items.length - 1)
  let isMultiline :=
    items.any (fun r => r.isMultiline) ||
    widthExceeded (ctx.indent.length + singleLineLength) ctx.wrapWidth ||
    joiner.contains '\n'
  let content :=
    if isMultiline then
      (List.intersperse (trimR joiner ++ '\n' :: ctx.indent) (items.map (fun r => r.content))).flatten
    else
      (List.intersperse joiner (items.map (fun r => r.content))).flatten
  { isMultiline := isMultiline, content := content }

/-- The backslash character. -/
def bsChar : Char := Char.ofNat 92

/-- The single-quote character. -/
def quChar : Char := Char.ofNat 39

/-- The escape table `escapeSubstitutes` of the source combined with the
replacement regex: characters in the table are replaced by their image,
all others kept. Note that the source maps the single quote to the
two-character sequence backslash-t, the same image as the tab character. -/
def escapeChar (c : Char) : Str :=
  if c = Char.ofNat 0 then [bsChar, '0']
  else if c = Char.ofNat 8 then [bsChar, 'b']
  else if c = Char.ofNat 12 then [bsChar, 'f']
  else if c = '\n' then [bsChar, 'n']
  else if c = '\r' then [bsChar, 'r']
  else if c = '\t' then [bsChar, 't']
  else if c = Char.ofNat 11 then [bsChar, 'v']
  else if c = bsChar then [bsChar, bsChar]
  else if c = quChar then [bsChar, 't']
  else [c]

/-- `stringifyStringLiteral` of the source. -/
def stringifyStringLiteral (s : Str) : Str :=
  quChar :: (s.map escapeChar).flatten ++ [quChar]

/-- First-character class of the identifier regex `^[a-zA-Z_]+[a-zA-Z0-9_]*$`. -/
def isNameStart (c : Char) : Bool :=
  ('a' ≤ c && c ≤ 'z') || ('A' ≤ c && c ≤ 'Z') || c = '_'

/-- Continuation-character class of the identifier regex. -/
def isNameChar (c : Char) : Bool :=
  isNameStart c || ('0' ≤ c && c ≤ '9')

/-- `isNameString` of the source: the language of `^[a-zA-Z_]+[a-zA-Z0-9_]*$`. -/
def isNameString (s : Str) : Bool :=
  match s with
  | [] => false
  | c :: rest => isNameStart c && rest.all isNameChar

/-- A JavaScript value: primitives plus references into a heap of
composite objects. Reference identity of composites is modelled by the
heap address. -/
inductive JSValue where
  | undef
  | null
  | bool (b : Bool)
  | num (n : Int)
  | str (s : Str)
  | ref (a : Nat)
deriving DecidableEq, Repr

/-- A composite heap object: array, Set, Map, plain object, or function
(a function carries its enumerable own properties, an ordinary function
having none). -/
inductive HeapObject where
  | arr (elems : List JSValue)
  | set (elems : List JSValue)
  | mapObj (entries : List (JSValue × JSValue))
  | plainObj (entries : List (Str × JSValue))
  | func (entries : List (Str × JSValue))
deriving DecidableEq, Repr

/-- `stringifyKey` of the source, dispatching on the runtime kind of the
key. A reference is rendered from its typeof: function or object. -/
def stringifyKey (heap : List HeapObject) (k : JSValue) : Str :=
  match k with
  | .undef => strOf "[undefined]"
  | .null => strOf "null"
  | .bool b => strOf (if b then "[true]" else "[false]")
  | .num n => '[' :: (toString n).data ++ [']']
  | .str s => if isNameString s then s else stringifyStringLiteral s
  | .ref a =>
    match heap[a]? with
    | some (.func _) => strOf "[<function>]"
    | _ => strOf "[<object>]"

/-- The child render context computed by a block node:
`indent + indentIncrement`. -/
def childCtxOf (ctx : RenderCtx) : RenderCtx :=
  ⟨ctx.wrapWidth, ctx.indent ++ ctx.indentIncrement, ctx.indentIncrement⟩

/-- Map a fallible function over a list, failing when any element fails. -/
def mapO (f : α → Option β) : List α → Option (List β)
  | [] => some []
  | a :: as =>
    match f a, mapO f as with
    | some b, some bs => some (b :: bs)
    | _, _ => none

/-- The key:value entry node of `objectLike`:
an inline node with fragments ["", ": ", ""] and children
[text of the stringified key, the entry value]. -/
def entryItem (render : JSValue → RenderCtx → Option RenderResult)
    (keyText : Str) (v : JSValue) (ctx' : RenderCtx) : Option RenderResult :=
  (render v ctx').map (fun rv =>
    inlineCore [[], strOf ": ", []] [textCore keyText ctx', rv] ctx')

/-- The `objectLike` helper of the source: a block with fragments
open and close brace fragments around a sorted comma-joined list of key:value entries.
The entry nodes are list items, hence rendered at the block child
indent. -/
def objectLikeShape (render : JSValue → RenderCtx → Option RenderResult)
    (keyText : JSValue → Str) (entries : List (JSValue × JSValue)) (ctx : RenderCtx) :
    Option RenderResult :=
  (mapO (fun kv => entryItem render (keyText kv.1) kv.2 (childCtxOf ctx)) entries).map
    (fun items =>
      blockCore [strOf "\x7b ", strOf " \x7d"] [listCore (strOf ", ") true items (childCtxOf ctx)] ctx)

/-- The recursive render of the stringify driver fused with
`defaultFormatter` and the node renders it produces, with explicit fuel.
The fuel only decreases when recursing into a composite value that is
added to the ancestry list, so any fuel exceeding the number of
unvisited heap addresses is sufficient (proved below). -/
def renderVF : Nat → List HeapObject → List Nat → JSValue → RenderCtx → Option RenderResult
  | _, _, _, .undef, ctx => some (textCore (strOf "undefined") ctx)
  | _, _, _, .null, ctx => some (textCore (strOf "null") ctx)
  | _, _, _, .bool b, ctx => some (textCore (strOf (if b then "true" else "false")) ctx)
  | _, _, _, .num n, ctx => some (textCore (toString n).data ctx)
  | _, _, _, .str s, ctx => some (textCore (stringifyStringLiteral s) ctx)
  | 0, _, _, .ref _, _ => none
  | fuel + 1, heap, visited, .ref a, ctx =>
    if a ∈ visited then some (textCore (strOf "<circular>") ctx)
    else
      match heap[a]? with
      | none => some (textCore (strOf "undefined") ctx)
      | some (.arr elems) =>
        (mapO (fun e => renderVF fuel heap (a :: visited) e (childCtxOf ctx)) elems).map
          (fun rs =>
            blockCore [strOf "[", strOf "]"] [listCore (strOf ", ") false rs (childCtxOf ctx)] ctx)
      | some (.set elems) =>
        (mapO (fun e => renderVF fuel heap (a :: visited) e (childCtxOf ctx)) elems).map
          (fun rs =>
            blockCore [strOf "Set [", strOf "]"] [listCore (strOf ", ") true rs (childCtxOf ctx)] ctx)
      | some (.mapObj entries) =>
        (objectLikeShape (renderVF fuel heap (a :: visited)) (stringifyKey heap) entries ctx).map
          (fun rb => inlineCore [strOf "Map ", []] [rb] ctx)
      | some (.plainObj entries) =>
        objectLikeShape (renderVF fuel heap (a :: visited)) (stringifyKey heap)
          (entries.map (fun kv => (.str kv.1, kv.2))) ctx
      | some (.func entries) =>
        objectLikeShape (renderVF fuel heap (a :: visited)) (stringifyKey heap)
          (entries.map (fun kv => (.str kv.1, kv.2))) ctx

/-- Number of heap addresses not on the ancestry list. -/
def unvisitedCount (heap : List HeapObject) (visited : List Nat) : Nat :=
  ((Finset.range heap.length).filter (fun i => i ∉ visited)).card

/-- The driver render function: fuel instantiated with a sufficient bound. -/
def renderV (heap : List HeapObject) (visited : List Nat) (v : JSValue) (ctx : RenderCtx) :
    Option RenderResult :=
  renderVF (unvisitedCount heap visited + 1) heap visited v ctx

/-- `spaceWithLength` of the source. -/
def spaceWithLength (n : Nat) : Str := List.replicate n ' '

/-- The default render context of `stringify`: wrap width 120, empty
base indent, two-space indent increment. -/
def defaultCtx : RenderCtx := ⟨some 120, [], spaceWithLength 2⟩

/-- `stringify` over the value model: render with an empty ancestry
list and return the content. -/
def stringifyJS (heap : List HeapObject) (v : JSValue) (ctx : RenderCtx) : Option Str :=
  (renderV heap [] v ctx).map (fun r => r.content)

/-- Construction of a text node from the source `text`: no count check
is performed at construction. -/
def mkText (strings interps : List Str) : Except String (List Str × List Str) :=
  .ok (strings, interps)

/-- Construction of a block node from the source `block`: fails unless
there is exactly one more fragment than children. -/
def mkBlock (strings : List Str) (children : List α) : Except String (List Str × List α) :=
  if strings.length = children.length + 1 then .ok (strings, children)
  else .error "Expected a tagged template to be invoked with exactly one more string than interpolation"

/-- Construction of an inline node from the source `inline`: fails unless
there is exactly one more fragment than children. -/
def mkInline (strings : List Str) (children : List α) : Except String (List Str × List α) :=
  if strings.length = children.length + 1 then .ok (strings, children)
  else .error "Expected a tagged template to be invoked with exactly one more string than interpolation"

/-- Rendering a text node from its raw fragments and stringified
interpolations: the source assembles them with the fallible
`interpolate` inside the render, so a count mismatch surfaces here. -/
def textRenderRaw (strings interps : List Str) (ctx : RenderCtx) : Except String RenderResult :=
  (interpolateE strings interps).map (fun s => textCore s ctx)

/-- Join lines with newline characters (the `.join('\n')` of the source). -/
def joinLines (ls : List Str) : Str := (List.intersperse (strOf "\n") ls).flatten

/-- A render context with wrap width 0, empty base indent and the default
two-space increment. -/
def ctxZero : RenderCtx := ⟨some 0, [], spaceWithLength 2⟩

/-- The circular array of the repository test suite: an array that
contains itself at index 0 and an inner array that also contains the
outer one. -/
def heapCircular : List HeapObject :=
  [.arr [.ref 0, .str (strOf "b"), .ref 1], .arr [.str (strOf "c"), .ref 0]]

/-- A shared (but acyclic) value: the outer array contains the same
inner array twice through unrelated branches. -/
def heapShared : List HeapObject := [.arr [.ref 1, .ref 1], .arr [.num 1]]

/-- A plain object with keys in non-alphabetical insertion order. -/
def heapObjPair : List HeapObject :=
  [.plainObj [(strOf "b", .num 1), (strOf "a", .num 2)]]

/-- The plain object of the repository test suite, with a key that does
not match identifier syntax. -/
def heapObjThree : List HeapObject :=
  [.plainObj [(strOf "a", .num 1), (strOf "#b", .num 2), (strOf "c", .num 3)]]

/-- A function value with no enumerable own properties. -/
def heapFuncEmpty : List HeapObject := [.func []]

/-- A function value with an enumerable own property referring back to
the function itself. -/
def heapFuncSelf : List HeapObject := [.func [(strOf "self", .ref 0)]]


theorem widthExceeded_iff (n : Nat) (w : Width) :
    widthExceeded n w = true ↔ ∃ k, w = some k ∧ k < n := by
  cases w <;> simp [widthExceeded]

theorem widthExceeded_mono {n m : Nat} (w : Width) (h : n ≤ m)
    (hm : widthExceeded m w = false) : widthExceeded n w = false := by
  cases w with
  | none => rfl
  | some k =>
    simp only [widthExceeded, decide_eq_false_iff_not, not_lt] at hm ⊢
    omega

theorem contains_iff_mem (s : Str) (c : Char) : s.contains c = true ↔ c ∈ s := by
  simp [List.contains]

theorem interpolateT_not_mem (c : Char) :
    ∀ (ss is : List Str), (∀ s ∈ ss, c ∉ s) → (∀ i ∈ is, c ∉ i) →
      c ∉ interpolateT ss is := by
  intro ss
  induction ss with
  | nil => intro is _ _; simp [interpolateT]
  | cons s ss ih =>
    intro is hs hi
    cases is with
    | nil => simpa [interpolateT] using hs s (by simp)
    | cons i is =>
      simp only [interpolateT, List.mem_append, not_or]
      exact ⟨⟨hs s (by simp), hi i (by simp)⟩,
        ih is (fun x hx => hs x (by simp [hx])) (fun x hx => hi x (by simp [hx]))⟩

theorem interpolateT_length_le :
    ∀ (ss is : List Str),
      (interpolateT ss is).length ≤ (ss.map List.length).sum + (is.map List.length).sum := by
  intro ss
  induction ss with
  | nil => intro is; simp [interpolateT]
  | cons s ss ih =>
    intro is
    cases is with
    | nil => simp [interpolateT]
    | cons i is =>
      simp only [interpolateT, List.length_append, List.map_cons, List.sum_cons]
      have := ih is
      omega

theorem splitOnChar_ne_nil (c : Char) : ∀ s : Str, splitOnChar c s ≠ [] := by
  intro s
  induction s with
  | nil => simp [splitOnChar]
  | cons x xs ih =>
    by_cases h : x = c
    · simp [splitOnChar, h]
    · simp only [splitOnChar, if_neg h]
      cases hs : splitOnChar c xs <;> simp

theorem splitOnChar_length (c : Char) :
    ∀ s : Str, (splitOnChar c s).length = s.count c + 1 := by
  intro s
  induction s with
  | nil => simp [splitOnChar]
  | cons x xs ih =>
    by_cases h : x = c
    · simp [splitOnChar, h, List.count_cons, ih]
    · cases hs : splitOnChar c xs with
      | nil => exact absurd hs (splitOnChar_ne_nil c xs)
      | cons l ls =>
        have hcount : (x :: xs).count c = xs.count c := by
          simp [List.count_cons, h]
        simp only [splitOnChar, if_neg h, hs, hcount]
        have := ih
        rw [hs] at this
        simpa using this

theorem mapInit_length (f : α → α) : ∀ l : List α, (mapInit f l).length = l.length := by
  intro l
  induction l with
  | nil => rfl
  | cons a t ih =>
    cases t with
    | nil => rfl
    | cons b t2 => simpa [mapInit] using ih

theorem splitLines_length (s : Str) : (splitLines s).length = s.count '\n' + 1 := by
  rw [splitLines, mapInit_length, splitOnChar_length]

theorem textCore_single_line {s : Str} {ctx : RenderCtx}
    (h : (textCore s ctx).isMultiline = false) :
    (textCore s ctx).content = s ∧ '\n' ∉ s := by
  cases hsplit : splitLines s with
  | nil =>
    have := splitLines_length s
    rw [hsplit] at this
    simp at this
  | cons a t =>
    cases t with
    | nil =>
      have hlen := splitLines_length s
      rw [hsplit] at hlen
      simp only [List.length_cons, List.length_nil] at hlen
      have hcount : s.count '\n' = 0 := by omega
      constructor
      · simp [textCore, hsplit]
      · exact List.count_eq_zero.mp hcount
    | cons b t2 =>
      exfalso
      rw [textCore, hsplit] at h
      simp at h

theorem strLt_irrefl : ∀ a : Str, strLt a a = false := by
  intro a
  induction a with
  | nil => rfl
  | cons x xs ih => simp [strLt, ih]

theorem strLt_trans :
    ∀ (a b c : Str), strLt a b = true → strLt b c = true → strLt a c = true := by
  intro a
  induction a with
  | nil =>
    intro b c hab hbc
    cases b with
    | nil => simp [strLt] at hab
    | cons bb bs =>
      cases c with
      | nil => simp [strLt] at hbc
      | cons cc cs => simp [strLt]
  | cons aa as ih =>
    intro b c hab hbc
    cases b with
    | nil => simp [strLt] at hab
    | cons bb bs =>
      cases c with
      | nil => simp [strLt] at hbc
      | cons cc cs =>
        simp only [strLt, Bool.or_eq_true, Bool.and_eq_true, decide_eq_true_eq] at hab hbc ⊢
        rcases hab with h1 | ⟨he, h2⟩ <;> rcases hbc with g1 | ⟨ge, g2⟩
        · exact Or.inl (lt_trans h1 g1)
        · exact Or.inl (ge ▸ h1)
        · exact Or.inl (he ▸ g1)
        · exact Or.inr ⟨he.trans ge, ih bs cs h2 g2⟩

theorem strLt_not_both :
    ∀ (a b : Str), strLt a b = true → strLt b a = true → False := by
  intro a
  induction a with
  | nil =>
    intro b hab hba
    cases b with
    | nil => simp [strLt] at hab
    | cons bb bs => simp [strLt] at hba
  | cons aa as ih =>
    intro b hab hba
    cases b with
    | nil => simp [strLt] at hab
    | cons bb bs =>
      simp only [strLt, Bool.or_eq_true, Bool.and_eq_true, decide_eq_true_eq] at hab hba
      rcases hab with h1 | ⟨he, h2⟩ <;> rcases hba with g1 | ⟨ge, g2⟩
      · exact absurd g1 (lt_asymm h1)
      · exact absurd h1 (ge ▸ lt_irrefl aa)
      · exact absurd g1 (he ▸ lt_irrefl aa)
      · exact ih bs h2 g2

theorem strLt_connex :
    ∀ (a b : Str), strLt a b = false → strLt b a = false → a = b := by
  intro a
  induction a with
  | nil =>
    intro b hab _
    cases b with
    | nil => rfl
    | cons bb bs => simp [strLt] at hab
  | cons aa as ih =>
    intro b hab hba
    cases b with
    | nil => simp [strLt] at hba
    | cons bb bs =>
      simp only [strLt, Bool.or_eq_false_iff, Bool.and_eq_false_iff,
        decide_eq_false_iff_not, not_lt] at hab hba
      have he : aa = bb := le_antisymm hba.1 hab.1
      have h2 : strLt as bs = false := hab.2.resolve_left (fun hne => hne he)
      have g2 : strLt bs as = false := hba.2.resolve_left (fun hne => hne he.symm)
      rw [he, ih bs h2 g2]

theorem strLe_of_not_strLe {a b : Str} (h : strLe a b = false) : strLe b a = true := by
  have h' : strLt b a = true := by simpa [strLe] using h
  simp only [strLe, Bool.not_eq_true']
  cases hab : strLt a b with
  | false => rfl
  | true => exact (strLt_not_both a b hab h').elim

theorem strLe_trans {a b c : Str} (h1 : strLe a b = true) (h2 : strLe b c = true) :
    strLe a c = true := by
  simp only [strLe, Bool.not_eq_true'] at h1 h2 ⊢
  cases hca : strLt c a with
  | false => rfl
  | true =>
    exfalso
    cases hbc : strLt b c with
    | true =>
      have hba : strLt b a = true := strLt_trans b c a hbc hca
      rw [h1] at hba
      exact Bool.false_ne_true hba
    | false =>
      have hbceq : b = c := strLt_connex b c hbc h2
      rw [hbceq] at h1
      rw [h1] at hca
      exact Bool.false_ne_true hca

theorem strLe_antisymm {a b : Str} (h1 : strLe a b = true) (h2 : strLe b a = true) : a = b := by
  simp only [strLe, Bool.not_eq_true'] at h1 h2
  exact strLt_connex a b h2 h1

/-- The ordering of rendered items used by the sorting list node. -/
def contentLE (x y : RenderResult) : Prop := strLe x.content y.content = true

theorem insertSorted_perm (a : RenderResult) :
    ∀ l : List RenderResult, (insertSorted a l).Perm (a :: l) := by
  intro l
  induction l with
  | nil => simp [insertSorted]
  | cons b bs ih =>
    by_cases h : strLe a.content b.content = true
    · simp [insertSorted, h]
    · simp only [insertSorted, if_neg h]
      exact (ih.cons b).trans (List.Perm.swap a b bs)

theorem sortByContent_perm : ∀ l : List RenderResult, (sortByContent l).Perm l := by
  intro l
  induction l with
  | nil => simp [sortByContent]
  | cons a as ih =>
    exact (insertSorted_perm a (sortByContent as)).trans (ih.cons a)

theorem insertSorted_pairwise {a : RenderResult} {l : List RenderResult}
    (h : l.Pairwise contentLE) : (insertSorted a l).Pairwise contentLE := by
  induction l with
  | nil => simp [insertSorted, List.pairwise_cons]
  | cons b bs ih =>
    rcases List.pairwise_cons.mp h with ⟨hb, hbs⟩
    by_cases hab : strLe a.content b.content = true
    · simp only [insertSorted, if_pos hab]
      refine List.pairwise_cons.mpr ⟨?_, h⟩
      intro y hy
      rcases List.mem_cons.mp hy with rfl | hy'
      · exact hab
      · exact strLe_trans hab (hb y hy')
    · simp only [insertSorted, if_neg hab]
      refine List.pairwise_cons.mpr ⟨?_, ih hbs⟩
      intro y hy
      rcases List.mem_cons.mp ((insertSorted_perm a bs).mem_iff.mp hy) with rfl | hy'
      · exact strLe_of_not_strLe (by simpa using hab)
      · exact hb y hy'

theorem sortByContent_pairwise : ∀ l : List RenderResult,
    (sortByContent l).Pairwise contentLE := by
  intro l
  induction l with
  | nil => simp [sortByContent]
  | cons a as ih => exact insertSorted_pairwise ih

theorem strLt_ne {a b : Str} (h : strLt a b = true) : a ≠ b := by
  intro he
  rw [he, strLt_irrefl] at h
  exact Bool.false_ne_true h

theorem insertSorted_filter (a : RenderResult) (c : Str) :
    ∀ l : List RenderResult,
      (insertSorted a l).filter (fun x => decide (x.content = c)) =
        if a.content = c
        then a :: l.filter (fun x => decide (x.content = c))
        else l.filter (fun x => decide (x.content = c)) := by
  intro l
  induction l with
  | nil =>
    by_cases hc : a.content = c <;> simp [insertSorted, List.filter, hc]
  | cons b bs ih =>
    by_cases hab : strLe a.content b.content = true
    · rw [show insertSorted a (b :: bs) = a :: b :: bs by simp [insertSorted, hab]]
      by_cases hc : a.content = c <;> by_cases hbc : b.content = c <;>
        simp [List.filter_cons, hc, hbc]
    · rw [show insertSorted a (b :: bs) = b :: insertSorted a bs by simp [insertSorted, hab]]
      have hba : strLt b.content a.content = true := by simpa [strLe] using hab
      by_cases hc : a.content = c
      · have hbc : ¬(b.content = c) := fun hbceq => strLt_ne hba (hbceq.trans hc.symm)
        simp [List.filter_cons, hbc, hc, ih]
      · by_cases hbc : b.content = c <;> simp [List.filter_cons, hbc, hc, ih]

theorem sortByContent_filter (c : Str) :
    ∀ l : List RenderResult,
      (sortByContent l).filter (fun x => decide (x.content = c)) =
        l.filter (fun x => decide (x.content = c)) := by
  intro l
  induction l with
  | nil => simp [sortByContent]
  | cons a as ih =>
    by_cases hc : a.content = c <;>
      simp [sortByContent, insertSorted_filter, List.filter_cons, hc, ih]

theorem eq_of_perm_of_pairwise_strLe :
    ∀ (l1 l2 : List Str), l1.Perm l2 →
      l1.Pairwise (fun x y => strLe x y = true) →
      l2.Pairwise (fun x y => strLe x y = true) → l1 = l2 := by
  intro l1
  induction l1 with
  | nil =>
    intro l2 hp _ _
    exact (hp.nil_eq).symm ▸ rfl
  | cons a as ih =>
    intro l2 hp h1 h2
    cases l2 with
    | nil => exact absurd hp.symm.nil_eq (by simp)
    | cons b bs =>
      rcases List.pairwise_cons.mp h1 with ⟨ha, has⟩
      rcases List.pairwise_cons.mp h2 with ⟨hb, hbs⟩
      have hab : a = b := by
        have hamem : a ∈ b :: bs := hp.mem_iff.mp (by simp)
        have hbmem : b ∈ a :: as := hp.mem_iff.mpr (by simp)
        rcases List.mem_cons.mp hamem with h | h
        · exact h
        · rcases List.mem_cons.mp hbmem with h' | h'
          · exact h'.symm
          · exact strLe_antisymm (ha b h') (hb a h)
      subst hab
      rw [ih bs (hp.cons_inv) has hbs]

theorem perm_any {l1 l2 : List α} (h : l1.Perm l2) (p : α → Bool) :
    l1.any p = l2.any p := by
  cases h2 : l2.any p with
  | false =>
    rw [List.any_eq_false] at h2 ⊢
    intro x hx
    exact h2 x (h.mem_iff.mp hx)
  | true =>
    rw [List.any_eq_true] at h2 ⊢
    rcases h2 with ⟨x, hx, hp⟩
    exact ⟨x, h.mem_iff.mpr hx, hp⟩

theorem interjoin_length (j : Str) :
    ∀ l : List Str, ((List.intersperse j l).flatten).length
      = (l.map List.length).sum + j.length * (l.length - 1) := by
  intro l
  induction l with
  | nil => simp
  | cons a t ih =>
    cases t with
    | nil => simp
    | cons b t2 =>
      rw [List.intersperse_cons_cons]
      simp only [List.flatten_cons, List.length_append, List.map_cons, List.sum_cons,
        List.length_cons] at ih ⊢
      rw [ih]
      have h1 : t2.length + 1 - 1 = t2.length := by omega
      have h2 : t2.length + 1 + 1 - 1 = t2.length + 1 := by omega
      have h3 : (2 : Nat) + t2.length - 1 = t2.length + 1 := by omega
      have h4 : (1 : Nat) + t2.length - 1 = t2.length := by omega
      simp only [h1, h2, h3, h4, Nat.mul_succ]
      omega

theorem interjoin_not_mem {c : Char} {j : Str} (hj : c ∉ j) :
    ∀ l : List Str, (∀ x ∈ l, c ∉ x) → c ∉ (List.intersperse j l).flatten := by
  intro l
  induction l with
  | nil => intro _; simp
  | cons a t ih =>
    intro hl
    cases t with
    | nil => simpa using hl a (by simp)
    | cons b t2 =>
      rw [List.intersperse_cons_cons]
      simp only [List.flatten_cons, List.mem_append, not_or]
      exact ⟨hl a (by simp), hj, ih (fun x hx => hl x (List.mem_cons_of_mem a hx))⟩

theorem listCore_sort_perm_eq {joiner : Str} {l1 l2 : List RenderResult} {ctx : RenderCtx}
    (h : l1.Perm l2) :
    listCore joiner true l1 ctx = listCore joiner true l2 ctx := by
  have hperm : (sortByContent l1).Perm (sortByContent l2) :=
    (sortByContent_perm l1).trans (h.trans (sortByContent_perm l2).symm)
  have hcont : (sortByContent l1).map (fun r => r.content)
      = (sortByContent l2).map (fun r => r.content) := by
    apply eq_of_perm_of_pairwise_strLe _ _ (hperm.map _)
    · exact (List.pairwise_map).mpr (by simpa [contentLE] using sortByContent_pairwise l1)
    · exact (List.pairwise_map).mpr (by simpa [contentLE] using sortByContent_pairwise l2)
  have hlen : (sortByContent l1).map (fun r => r.content.length)
      = (sortByContent l2).map (fun r => r.content.length) := by
    have h2 := congrArg (List.map List.length) hcont
    simpa [List.map_map, Function.comp] using h2
  have hany : (sortByContent l1).any (fun r => r.isMultiline)
      = (sortByContent l2).any (fun r => r.isMultiline) := perm_any hperm _
  have hlength : (sortByContent l1).length = (sortByContent l2).length := hperm.length_eq
  simp only [listCore, if_true]
  rw [hcont, hlen, hany, hlength]

theorem mapO_isSome {f : α → Option β} :
    ∀ l : List α, (∀ x ∈ l, (f x).isSome) → (mapO f l).isSome := by
  intro l
  induction l with
  | nil => intro _; simp [mapO]
  | cons a as ih =>
    intro h
    rcases Option.isSome_iff_exists.mp (h a (by simp)) with ⟨b, hb⟩
    rcases Option.isSome_iff_exists.mp (ih (fun x hx => h x (by simp [hx]))) with ⟨bs, hbs⟩
    rw [mapO, hb, hbs]
    rfl

theorem mapO_eq_none_iff {f : α → Option β} :
    ∀ l : List α, mapO f l = none ↔ ∃ x ∈ l, f x = none := by
  intro l
  induction l with
  | nil => simp [mapO]
  | cons a as ih =>
    constructor
    · intro h
      rw [mapO] at h
      cases hfa : f a with
      | none => exact ⟨a, by simp, hfa⟩
      | some b =>
        cases hmas : mapO f as with
        | none =>
          rcases ih.mp hmas with ⟨x, hx, hfx⟩
          exact ⟨x, by simp [hx], hfx⟩
        | some bs => rw [hfa, hmas] at h; simp at h
    · rintro ⟨x, hx, hfx⟩
      rw [mapO]
      rcases List.mem_cons.mp hx with rfl | hx'
      · rw [hfx]
      · have hnone : mapO f as = none := ih.mpr ⟨x, hx', hfx⟩
        rw [hnone]
        cases f a <;> rfl

theorem mapO_some_perm {f : α → Option β} {l1 l2 : List α} (h : l1.Perm l2) :
    ∀ {items1 items2 : List β}, mapO f l1 = some items1 → mapO f l2 = some items2 →
      items1.Perm items2 := by
  induction h with
  | nil =>
    intro i1 i2 h1 h2
    rw [mapO] at h1 h2
    cases h1; cases h2
    exact List.Perm.refl _
  | cons x hl ih =>
    intro i1 i2 h1 h2
    rw [mapO] at h1 h2
    cases hfx : f x with
    | none => rw [hfx] at h1; simp at h1
    | some b =>
      rw [hfx] at h1 h2
      cases hm1 : mapO f _ with
      | none => rw [hm1] at h1; simp at h1
      | some bs1 =>
        cases hm2 : mapO f _ with
        | none => rw [hm2] at h2; simp at h2
        | some bs2 =>
          rw [hm1] at h1
          rw [hm2] at h2
          cases h1; cases h2
          exact (ih hm1 hm2).cons b
  | swap x y l =>
    intro i1 i2 h1 h2
    simp only [mapO] at h1 h2
    cases hfx : f x with
    | none => rw [hfx] at h2; simp at h2
    | some b =>
      cases hfy : f y with
      | none => rw [hfy] at h1; simp at h1
      | some c =>
        cases hml : mapO f l with
        | none => rw [hfx, hfy, hml] at h1; simp at h1
        | some bs =>
          rw [hfx, hfy, hml] at h1
          rw [hfx, hfy, hml] at h2
          cases h1; cases h2
          exact List.Perm.swap b c bs
  | trans h12 h23 ih1 ih2 =>
    intro i1 i2 h1 h2
    cases hm : mapO f _ with
    | none =>
      exfalso
      rcases (mapO_eq_none_iff _).mp hm with ⟨x, hx, hfx⟩
      have hn : mapO f _ = none := (mapO_eq_none_iff _).mpr ⟨x, h12.mem_iff.mpr hx, hfx⟩
      rw [h1] at hn
      simp at hn
    | some mid => exact (ih1 h1 hm).trans (ih2 hm h2)

theorem objectLikeShape_isSome {render : JSValue → RenderCtx → Option RenderResult}
    {keyText : JSValue → Str} {entries : List (JSValue × JSValue)} {ctx : RenderCtx}
    (h : ∀ v ctx', (render v ctx').isSome) :
    (objectLikeShape render keyText entries ctx).isSome := by
  simp only [objectLikeShape, Option.isSome_map']
  exact mapO_isSome entries (fun kv _ => by
    simp only [entryItem, Option.isSome_map']
    exact h _ _)

theorem objectLikeShape_perm (render : JSValue → RenderCtx → Option RenderResult)
    (keyText : JSValue → Str) {es1 es2 : List (JSValue × JSValue)} (ctx : RenderCtx)
    (h : es1.Perm es2) :
    objectLikeShape render keyText es1 ctx = objectLikeShape render keyText es2 ctx := by
  unfold objectLikeShape
  cases h1 : mapO (fun kv => entryItem render (keyText kv.1) kv.2 (childCtxOf ctx)) es1 with
  | none =>
    cases h2 : mapO (fun kv => entryItem render (keyText kv.1) kv.2 (childCtxOf ctx)) es2 with
    | none => rfl
    | some items2 =>
      exfalso
      rcases (mapO_eq_none_iff es1).mp h1 with ⟨x, hx, hfx⟩
      have hn : mapO (fun kv => entryItem render (keyText kv.1) kv.2 (childCtxOf ctx)) es2 = none :=
        (mapO_eq_none_iff es2).mpr ⟨x, h.mem_iff.mp hx, hfx⟩
      rw [h2] at hn
      simp at hn
  | some items1 =>
    cases h2 : mapO (fun kv => entryItem render (keyText kv.1) kv.2 (childCtxOf ctx)) es2 with
    | none =>
      exfalso
      rcases (mapO_eq_none_iff es2).mp h2 with ⟨x, hx, hfx⟩
      have hn : mapO (fun kv => entryItem render (keyText kv.1) kv.2 (childCtxOf ctx)) es1 = none :=
        (mapO_eq_none_iff es1).mpr ⟨x, h.mem_iff.mpr hx, hfx⟩
      rw [h1] at hn
      simp at hn
    | some items2 =>
      have hp : items1.Perm items2 := mapO_some_perm h h1 h2
      simp only [Option.map_some']
      rw [listCore_sort_perm_eq hp]

theorem unvisitedCount_cons_lt {heap : List HeapObject} {visited : List Nat} {a : Nat}
    (ha : a < heap.length) (hnv : a ∉ visited) :
    unvisitedCount heap (a :: visited) < unvisitedCount heap visited := by
  unfold unvisitedCount
  apply Finset.card_lt_card
  have hsub : (Finset.range heap.length).filter (fun i => i ∉ a :: visited) ⊆
      (Finset.range heap.length).filter (fun i => i ∉ visited) := by
    intro x hx
    simp only [Finset.mem_filter, Finset.mem_range, List.mem_cons, not_or] at hx ⊢
    exact ⟨hx.1, hx.2.2⟩
  rw [Finset.ssubset_iff_of_subset hsub]
  refine ⟨a, ?_, ?_⟩
  · simp [Finset.mem_filter, Finset.mem_range, ha, hnv]
  · simp [Finset.mem_filter, List.mem_cons]

theorem renderVF_isSome :
    ∀ (fuel : Nat) (heap : List HeapObject) (visited : List Nat) (v : JSValue) (ctx : RenderCtx),
      unvisitedCount heap visited < fuel → (renderVF fuel heap visited v ctx).isSome := by
  intro fuel
  induction fuel with
  | zero => intro heap visited v ctx h; exact absurd h (by omega)
  | succ fuel ih =>
    intro heap visited v ctx h
    cases v with
    | undef => simp [renderVF]
    | null => simp [renderVF]
    | bool b => simp [renderVF]
    | num n => simp [renderVF]
    | str s => simp [renderVF]
    | ref a =>
      by_cases hv : a ∈ visited
      · simp [renderVF, hv]
      · cases hobj : heap[a]? with
        | none => simp [renderVF, hv, hobj]
        | some obj =>
          have ha : a < heap.length := (List.getElem?_eq_some.mp hobj).1
          have hfuel : unvisitedCount heap (a :: visited) < fuel := by
            have := unvisitedCount_cons_lt ha hv
            omega
          have hrec : ∀ (v' : JSValue) (ctx' : RenderCtx),
              (renderVF fuel heap (a :: visited) v' ctx').isSome :=
            fun v' ctx' => ih heap (a :: visited) v' ctx' hfuel
          cases obj with
          | arr elems =>
            simp only [renderVF, if_neg hv, hobj, Option.isSome_map']
            exact mapO_isSome elems (fun e _ => hrec e (childCtxOf ctx))
          | set elems =>
            simp only [renderVF, if_neg hv, hobj, Option.isSome_map']
            exact mapO_isSome elems (fun e _ => hrec e (childCtxOf ctx))
          | mapObj entries =>
            simp only [renderVF, if_neg hv, hobj, Option.isSome_map']
            exact objectLikeShape_isSome hrec
          | plainObj entries =>
            simp only [renderVF, if_neg hv, hobj]
            exact objectLikeShape_isSome hrec
          | func entries =>
            simp only [renderVF, if_neg hv, hobj]
            exact objectLikeShape_isSome hrec

theorem foldl_min_le_head : ∀ (ns : List Nat) (n : Nat), ns.foldl Nat.min n ≤ n := by
  intro ns
  induction ns with
  | nil => intro n; simp
  | cons m ms ih =>
    intro n
    calc ms.foldl Nat.min (Nat.min n m) ≤ Nat.min n m := ih (Nat.min n m)
    _ ≤ n := Nat.min_le_left n m

theorem foldl_min_le_mem : ∀ (ns : List Nat) (n x : Nat), x ∈ ns → ns.foldl Nat.min n ≤ x := by
  intro ns
  induction ns with
  | nil => intro n x hx; simp at hx
  | cons m ms ih =>
    intro n x hx
    rcases List.mem_cons.mp hx with rfl | hx'
    · calc ms.foldl Nat.min (Nat.min n x) ≤ Nat.min n x := foldl_min_le_head ms _
      _ ≤ x := Nat.min_le_right n x
    · exact ih (Nat.min n m) x hx'

theorem foldl_min_mem : ∀ (ns : List Nat) (n : Nat),
    ns.foldl Nat.min n = n ∨ ns.foldl Nat.min n ∈ ns := by
  intro ns
  induction ns with
  | nil => intro n; simp
  | cons m ms ih =>
    intro n
    rcases ih (Nat.min n m) with h | h
    · rcases Nat.le_total n m with hnm | hmn
      · left
        rw [List.foldl_cons, h]
        exact Nat.min_eq_left hnm
      · right
        rw [List.foldl_cons, h]
        have he : n.min m = m := Nat.min_eq_right hmn
        rw [he]
        simp
    · right
      rw [List.foldl_cons]
      exact List.mem_cons_of_mem m h

theorem minIndentSize_le {restLines : List Str} {l : Str}
    (hl : l ∈ restLines.filter (fun l => !isBlankLine l)) :
    minIndentSize restLines ≤ indentOfLine l := by
  unfold minIndentSize
  cases hmap : (restLines.filter (fun l => !isBlankLine l)).map indentOfLine with
  | nil =>
    exfalso
    have := List.map_eq_nil_iff.mp hmap
    rw [this] at hl
    simp at hl
  | cons n ns =>
    have hmem : indentOfLine l ∈ n :: ns := hmap ▸ List.mem_map_of_mem indentOfLine hl
    rcases List.mem_cons.mp hmem with he | hmem'
    · rw [he]; exact foldl_min_le_head ns n
    · exact foldl_min_le_mem ns n _ hmem'

theorem minIndentSize_attained {restLines : List Str}
    (h : restLines.filter (fun l => !isBlankLine l) ≠ []) :
    ∃ l ∈ restLines.filter (fun l => !isBlankLine l),
      indentOfLine l = minIndentSize restLines := by
  unfold minIndentSize
  cases hmap : (restLines.filter (fun l => !isBlankLine l)).map indentOfLine with
  | nil => exact absurd (List.map_eq_nil_iff.mp hmap) h
  | cons n ns =>
    have hmem : ns.foldl Nat.min n ∈ n :: ns := by
      rcases foldl_min_mem ns n with he | hm
      · rw [he]; simp
      · exact List.mem_cons_of_mem n hm
    rw [← hmap] at hmem
    rcases List.mem_map.mp hmem with ⟨l, hl, he⟩
    exact ⟨l, hl, he⟩

theorem minIndentSize_of_no_nonblank {restLines : List Str}
    (h : restLines.filter (fun l => !isBlankLine l) = []) :
    minIndentSize restLines = 0 := by
  unfold minIndentSize
  rw [h]
  simp

theorem take_of_le_indentOfLine : ∀ (m : Nat) (l : Str), m ≤ indentOfLine l →
    l.take m = List.replicate m ' ' := by
  intro m
  induction m with
  | zero => intro l _; simp
  | succ m ih =>
    intro l h
    cases l with
    | nil => simp [indentOfLine] at h
    | cons c ls =>
      by_cases hc : c = ' '
      · subst hc
        have hexp : indentOfLine (' ' :: ls) = indentOfLine ls + 1 := by
          simp [indentOfLine, List.takeWhile_cons]
        have h' : m ≤ indentOfLine ls := by
          rw [hexp] at h
          omega
        rw [List.take_succ_cons, List.replicate_succ, ih ls h']
      · exfalso
        simp only [indentOfLine, List.takeWhile_cons] at h
        rw [if_neg (by simpa using hc)] at h
        simp at h

theorem take_eq_replicate_iff {m : Nat} {l : Str} :
    l.take m = List.replicate m ' ' ↔ m ≤ l.length ∧ ∀ c ∈ l.take m, c = ' ' := by
  constructor
  · intro h
    constructor
    · have := congrArg List.length h
      simp [List.length_take] at this
      omega
    · intro c hc
      rw [h] at hc
      exact List.eq_of_mem_replicate hc
  · rintro ⟨hlen, hall⟩
    calc l.take m = List.replicate (l.take m).length ' ' := List.eq_replicate_of_mem hall
      _ = List.replicate m ' ' := by rw [List.length_take, Nat.min_eq_left hlen]

theorem interpolateGo_error :
    ∀ (ss is : List Str) (acc : Str), ss.length ≠ is.length →
      ∃ e, interpolateGo acc ss is = .error e := by
  intro ss
  induction ss with
  | nil =>
    intro is acc h
    cases is with
    | nil => simp at h
    | cons i is => exact ⟨_, rfl⟩
  | cons s ss ih =>
    intro is acc h
    cases is with
    | nil => exact ⟨_, rfl⟩
    | cons i is => exact ih is _ (by simpa using h)

theorem interpolateE_error {strings interps : List Str}
    (h : strings.length ≠ interps.length + 1) :
    ∃ e, interpolateE strings interps = .error e := by
  cases strings with
  | nil => exact ⟨_, rfl⟩
  | cons s0 rest => exact interpolateGo_error rest interps s0 (by simpa using h)

/-- Claim C8: the escape table maps NUL, backspace, form-feed, newline,
carriage-return, tab, vertical-tab and backslash as the claim states,
but the single quote is mapped to the two-character sequence
backslash-t (the same image as the tab character), not to an escaped
quote; the final conjunct shows the output at the failing input differs
from the escaped-quote output the claim predicts. -/
theorem stringifyStringLiteral_escape_table :
    stringifyStringLiteral [Char.ofNat 0] = [quChar, bsChar, '0', quChar] ∧
    stringifyStringLiteral [Char.ofNat 8] = [quChar, bsChar, 'b', quChar] ∧
    stringifyStringLiteral [Char.ofNat 12] = [quChar, bsChar, 'f', quChar] ∧
    stringifyStringLiteral ['\n'] = [quChar, bsChar, 'n', quChar] ∧
    stringifyStringLiteral ['\r'] = [quChar, bsChar, 'r', quChar] ∧
    stringifyStringLiteral ['\t'] = [quChar, bsChar, 't', quChar] ∧
    stringifyStringLiteral [Char.ofNat 11] = [quChar, bsChar, 'v', quChar] ∧
    stringifyStringLiteral [bsChar] = [quChar, bsChar, bsChar, quChar] ∧
    stringifyStringLiteral (strOf "x") = strOf "\x27x\x27" ∧
    stringifyStringLiteral [quChar] = [quChar, bsChar, 't', quChar] ∧
    [quChar, bsChar, 't', quChar] ≠ [quChar, bsChar, quChar, quChar] := by
  decide

/-- Claim C9, counterexample: a text node built with three fragments and
one interpolation is constructed without any failure, and the count
mismatch only surfaces when the node is rendered. -/
theorem text_arity_deferred_counterexample :
    mkText [strOf "a", strOf "b", strOf "c"] [strOf "x"]
        = .ok ([strOf "a", strOf "b", strOf "c"], [strOf "x"]) ∧
    textRenderRaw [strOf "a", strOf "b", strOf "c"] [strOf "x"] defaultCtx
        = .error "A tagged template expects exactly one more string than interpolation value" := by
  constructor
  · rfl
  · rfl

/-- Claim C9, amended: a Block or Inline construction whose fragment
count is not exactly one more than its child count fails immediately at
construction; a Text construction performs no count check and succeeds,
the mismatch failing only when the node is rendered. -/
theorem construction_arity_check :
    (∀ (strings : List Str) (children : List JSValue),
      strings.length ≠ children.length + 1 →
        mkBlock strings children =
          .error "Expected a tagged template to be invoked with exactly one more string than interpolation" ∧
        mkInline strings children =
          .error "Expected a tagged template to be invoked with exactly one more string than interpolation") ∧
    (∀ (strings interps : List Str) (ctx : RenderCtx),
      strings.length ≠ interps.length + 1 →
        mkText strings interps = .ok (strings, interps) ∧
        ∃ e, textRenderRaw strings interps ctx = .error e) := by
  constructor
  · intro strings children h
    exact ⟨by simp [mkBlock, h], by simp [mkInline, h]⟩
  · intro strings interps ctx h
    refine ⟨rfl, ?_⟩
    rcases interpolateE_error h with ⟨e, he⟩
    exact ⟨e, by simp [textRenderRaw, he, Except.map]⟩

/-- Witness for the amended C9 theorem at concrete inputs. -/
theorem construction_arity_check_witness :
    mkBlock [strOf "a"] [JSValue.num 1] =
      .error "Expected a tagged template to be invoked with exactly one more string than interpolation" ∧
    mkInline [strOf "a"] [JSValue.num 1] =
      .error "Expected a tagged template to be invoked with exactly one more string than interpolation" ∧
    mkText [strOf "a"] [strOf "x", strOf "y"] = .ok ([strOf "a"], [strOf "x", strOf "y"]) ∧
    ∃ e, textRenderRaw [strOf "a"] [strOf "x", strOf "y"] defaultCtx = .error e :=
  ⟨(construction_arity_check.1 [strOf "a"] [JSValue.num 1] (by decide)).1,
   (construction_arity_check.1 [strOf "a"] [JSValue.num 1] (by decide)).2,
   (construction_arity_check.2 [strOf "a"] [strOf "x", strOf "y"] defaultCtx (by decide)).1,
   (construction_arity_check.2 [strOf "a"] [strOf "x", strOf "y"] defaultCtx (by decide)).2⟩

/-- Claim C3, counterexample: a text node renders single-line regardless
of the wrap width, so at wrap width 0 a five-character text yields
isMultiline false while the width is exceeded. -/
theorem text_ignores_wrap_width :
    (textCore (strOf "hello") ctxZero).isMultiline = false ∧
    ctxZero.wrapWidth = some 0 ∧
    widthExceeded (ctxZero.indent.length + (textCore (strOf "hello") ctxZero).content.length)
      ctxZero.wrapWidth = true := by
  decide

theorem blockCore_isMultiline_eq (strings : List Str) (rendered : List RenderResult)
    (ctx : RenderCtx) :
    (blockCore strings rendered ctx).isMultiline =
      (rendered.any (fun r => r.isMultiline) ||
       widthExceeded (ctx.indent.length + ((strings.map List.length).sum +
         (rendered.map (fun r => r.content.length)).sum)) ctx.wrapWidth ||
       strings.any (fun s => s.contains '\n')) := rfl

theorem inlineCore_isMultiline_eq (strings : List Str) (rendered : List RenderResult)
    (ctx : RenderCtx) :
    (inlineCore strings rendered ctx).isMultiline =
      (rendered.any (fun r => r.isMultiline) ||
       widthExceeded (ctx.indent.length + ((strings.map List.length).sum +
         (rendered.map (fun r => r.content.length)).sum)) ctx.wrapWidth ||
       strings.any (fun s => s.contains '\n')) := rfl

theorem inlineCore_content_eq (strings : List Str) (rendered : List RenderResult)
    (ctx : RenderCtx) :
    (inlineCore strings rendered ctx).content
      = interpolateT strings (rendered.map (fun r => r.content)) := rfl

theorem listCore_isMultiline_eq (joiner : Str) (sort : Bool) (rendered : List RenderResult)
    (ctx : RenderCtx) :
    (listCore joiner sort rendered ctx).isMultiline =
      ((if sort then sortByContent rendered else rendered).any (fun r => r.isMultiline) ||
       widthExceeded (ctx.indent.length +
         (((if sort then sortByContent rendered else rendered).map
             (fun r => r.content.length)).sum +
          joiner.length * ((if sort then sortByContent rendered else rendered).length - 1)))
         ctx.wrapWidth ||
       joiner.contains '\n') := rfl

theorem blockCore_content_single {strings : List Str} {rendered : List RenderResult}
    {ctx : RenderCtx} (h : (blockCore strings rendered ctx).isMultiline = false) :
    (blockCore strings rendered ctx).content
      = interpolateT strings (rendered.map (fun r => r.content)) := by
  simp only [blockCore] at h ⊢
  simp only [h]
  simp

theorem listCore_content_single {joiner : Str} {sort : Bool} {rendered : List RenderResult}
    {ctx : RenderCtx} (h : (listCore joiner sort rendered ctx).isMultiline = false) :
    (listCore joiner sort rendered ctx).content
      = (List.intersperse joiner
          ((if sort then sortByContent rendered else rendered).map (fun r => r.content))).flatten := by
  simp only [listCore] at h ⊢
  simp only [h]
  simp

/-- Claim C3, amended: width respect holds for the three node kinds that
consult the wrap width (Block, Inline, List): whenever such a node
renders single-line, the indent length plus the content length does not
exceed the wrap width. Text nodes ignore the width entirely (see the
counterexample). -/
theorem single_line_respects_width :
    (∀ (strings : List Str) (rendered : List RenderResult) (ctx : RenderCtx),
      (blockCore strings rendered ctx).isMultiline = false →
      widthExceeded (ctx.indent.length + (blockCore strings rendered ctx).content.length)
        ctx.wrapWidth = false) ∧
    (∀ (strings : List Str) (rendered : List RenderResult) (ctx : RenderCtx),
      (inlineCore strings rendered ctx).isMultiline = false →
      widthExceeded (ctx.indent.length + (inlineCore strings rendered ctx).content.length)
        ctx.wrapWidth = false) ∧
    (∀ (joiner : Str) (sort : Bool) (rendered : List RenderResult) (ctx : RenderCtx),
      (listCore joiner sort rendered ctx).isMultiline = false →
      widthExceeded (ctx.indent.length + (listCore joiner sort rendered ctx).content.length)
        ctx.wrapWidth = false) := by
  refine ⟨?_, ?_, ?_⟩
  · intro strings rendered ctx h
    have h' := h
    rw [blockCore_isMultiline_eq] at h'
    simp only [Bool.or_eq_false_iff] at h'
    have hw := h'.1.2
    rw [blockCore_content_single h]
    apply widthExceeded_mono _ _ hw
    have hle := interpolateT_length_le strings (rendered.map (fun r => r.content))
    have hmm : ((rendered.map (fun r => r.content)).map List.length).sum
        = (rendered.map (fun r => r.content.length)).sum := by
      rw [List.map_map]
      rfl
    omega
  · intro strings rendered ctx h
    have h' := h
    rw [inlineCore_isMultiline_eq] at h'
    simp only [Bool.or_eq_false_iff] at h'
    have hw := h'.1.2
    rw [inlineCore_content_eq]
    apply widthExceeded_mono _ _ hw
    have hle := interpolateT_length_le strings (rendered.map (fun r => r.content))
    have hmm : ((rendered.map (fun r => r.content)).map List.length).sum
        = (rendered.map (fun r => r.content.length)).sum := by
      rw [List.map_map]
      rfl
    omega
  · intro joiner sort rendered ctx h
    have h' := h
    rw [listCore_isMultiline_eq] at h'
    simp only [Bool.or_eq_false_iff] at h'
    have hw := h'.1.2
    rw [listCore_content_single h]
    apply widthExceeded_mono _ _ hw
    have hlen := interjoin_length joiner
      ((if sort then sortByContent rendered else rendered).map (fun r => r.content))
    have hmm : (((if sort then sortByContent rendered else rendered).map
          (fun r => r.content)).map List.length).sum
        = ((if sort then sortByContent rendered else rendered).map
            (fun r => r.content.length)).sum := by
      rw [List.map_map]
      rfl
    rw [hlen]
    simp only [List.length_map]
    omega

/-- Witness for the amended C3 theorem at concrete inputs. -/
theorem single_line_respects_width_witness :
    widthExceeded (defaultCtx.indent.length +
      (blockCore [strOf "(", strOf ")"] [] defaultCtx).content.length)
      defaultCtx.wrapWidth = false ∧
    widthExceeded (defaultCtx.indent.length +
      (inlineCore [strOf "a", strOf "b"] [textCore (strOf "x") defaultCtx] defaultCtx).content.length)
      defaultCtx.wrapWidth = false ∧
    widthExceeded (defaultCtx.indent.length +
      (listCore (strOf ", ") true [textCore (strOf "x") defaultCtx] defaultCtx).content.length)
      defaultCtx.wrapWidth = false :=
  ⟨single_line_respects_width.1 [strOf "(", strOf ")"] [] defaultCtx (by decide),
   single_line_respects_width.2.1 [strOf "a", strOf "b"] [textCore (strOf "x") defaultCtx]
     defaultCtx (by decide),
   single_line_respects_width.2.2 (strOf ", ") true [textCore (strOf "x") defaultCtx]
     defaultCtx (by decide)⟩

/-- Claim C1: a block render is multiline exactly when some rendered
child is multiline, or the indent length plus the single-line candidate
length (sum of fragment lengths plus sum of rendered child content
lengths) exceeds the wrap width, or some literal fragment contains a
line break; with an infinite wrap width the length condition never
holds. -/
theorem block_isMultiline_wrap_decision :
    ∀ (strings : List Str) (rendered : List RenderResult) (ctx : RenderCtx),
      ((blockCore strings rendered ctx).isMultiline = true ↔
        ((∃ r ∈ rendered, r.isMultiline = true) ∨
         (∃ w, ctx.wrapWidth = some w ∧
           w < ctx.indent.length + ((strings.map List.length).sum +
             (rendered.map (fun r => r.content.length)).sum)) ∨
         (∃ s ∈ strings, '\n' ∈ s))) ∧
      (ctx.wrapWidth = none →
        ((blockCore strings rendered ctx).isMultiline = true ↔
          ((∃ r ∈ rendered, r.isMultiline = true) ∨ (∃ s ∈ strings, '\n' ∈ s)))) := by
  intro strings rendered ctx
  have hmain : (blockCore strings rendered ctx).isMultiline = true ↔
      ((∃ r ∈ rendered, r.isMultiline = true) ∨
       (∃ w, ctx.wrapWidth = some w ∧
         w < ctx.indent.length + ((strings.map List.length).sum +
           (rendered.map (fun r => r.content.length)).sum)) ∨
       (∃ s ∈ strings, '\n' ∈ s)) := by
    rw [blockCore_isMultiline_eq]
    simp only [Bool.or_eq_true, List.any_eq_true, widthExceeded_iff, contains_iff_mem]
    exact or_assoc
  refine ⟨hmain, fun hnone => ?_⟩
  rw [hmain]
  simp [hnone]

/-- Witness for the C1 theorem: the infinite-width conjunct applied at a
concrete block and context. -/
theorem block_isMultiline_wrap_decision_witness :
    (blockCore [strOf "(", strOf ")"] [] (RenderCtx.mk none [] (spaceWithLength 2))).isMultiline
        = true ↔
      ((∃ r ∈ ([] : List RenderResult), r.isMultiline = true) ∨
       (∃ s ∈ [strOf "(", strOf ")"], '\n' ∈ s)) :=
  (block_isMultiline_wrap_decision [strOf "(", strOf ")"] []
    (RenderCtx.mk none [] (spaceWithLength 2))).2 rfl

/-- Claim C4: for each of the four node kinds, a single-line render
result contains no newline character; for the three composite kinds this
is compositional in the rendered children, which by the same property
satisfy the hypothesis whenever they are themselves built-in renders.
Line break means the newline character, the only break character the
renderer emits. -/
theorem single_line_no_newline :
    (∀ (s : Str) (ctx : RenderCtx),
      (textCore s ctx).isMultiline = false → '\n' ∉ (textCore s ctx).content) ∧
    (∀ (strings : List Str) (rendered : List RenderResult) (ctx : RenderCtx),
      (∀ r ∈ rendered, r.isMultiline = false → '\n' ∉ r.content) →
      (blockCore strings rendered ctx).isMultiline = false →
      '\n' ∉ (blockCore strings rendered ctx).content) ∧
    (∀ (strings : List Str) (rendered : List RenderResult) (ctx : RenderCtx),
      (∀ r ∈ rendered, r.isMultiline = false → '\n' ∉ r.content) →
      (inlineCore strings rendered ctx).isMultiline = false →
      '\n' ∉ (inlineCore strings rendered ctx).content) ∧
    (∀ (joiner : Str) (sort : Bool) (rendered : List RenderResult) (ctx : RenderCtx),
      (∀ r ∈ rendered, r.isMultiline = false → '\n' ∉ r.content) →
      (listCore joiner sort rendered ctx).isMultiline = false →
      '\n' ∉ (listCore joiner sort rendered ctx).content) := by
  refine ⟨?_, ?_, ?_, ?_⟩
  · intro s ctx h
    rcases textCore_single_line h with ⟨hc, hn⟩
    rw [hc]
    exact hn
  · intro strings rendered ctx hchild h
    have h' := h
    rw [blockCore_isMultiline_eq] at h'
    simp only [Bool.or_eq_false_iff, List.any_eq_false] at h'
    rw [blockCore_content_single h]
    apply interpolateT_not_mem
    · intro x hx
      exact fun hc => h'.2 x hx ((contains_iff_mem x '\n').mpr hc)
    · intro i hi
      rcases List.mem_map.mp hi with ⟨r, hr, rfl⟩
      exact hchild r hr (by simpa using h'.1.1 r hr)
  · intro strings rendered ctx hchild h
    have h' := h
    rw [inlineCore_isMultiline_eq] at h'
    simp only [Bool.or_eq_false_iff, List.any_eq_false] at h'
    rw [inlineCore_content_eq]
    apply interpolateT_not_mem
    · intro x hx
      exact fun hc => h'.2 x hx ((contains_iff_mem x '\n').mpr hc)
    · intro i hi
      rcases List.mem_map.mp hi with ⟨r, hr, rfl⟩
      exact hchild r hr (by simpa using h'.1.1 r hr)
  · intro joiner sort rendered ctx hchild h
    have h' := h
    rw [listCore_isMultiline_eq] at h'
    simp only [Bool.or_eq_false_iff, List.any_eq_false] at h'
    rw [listCore_content_single h]
    have hmemr : ∀ r ∈ (if sort then sortByContent rendered else rendered), r ∈ rendered := by
      cases sort with
      | false => simp
      | true =>
        intro r hr
        exact (sortByContent_perm rendered).mem_iff.mp (by simpa using hr)
    apply interjoin_not_mem
    · intro hc
      have hcc := (contains_iff_mem joiner '\n').mpr hc
      rw [h'.2] at hcc
      exact Bool.false_ne_true hcc
    · intro x hx
      rcases List.mem_map.mp hx with ⟨r, hr, rfl⟩
      exact hchild r (hmemr r hr) (by simpa using h'.1.1 r hr)

/-- Witness for the C4 theorem at concrete inputs. -/
theorem single_line_no_newline_witness :
    '\n' ∉ (textCore (strOf "abc") defaultCtx).content ∧
    '\n' ∉ (blockCore [strOf "(", strOf ")"] [] defaultCtx).content ∧
    '\n' ∉ (inlineCore [strOf "(", strOf ")"] [] defaultCtx).content ∧
    '\n' ∉ (listCore (strOf ", ") false [] defaultCtx).content :=
  ⟨single_line_no_newline.1 (strOf "abc") defaultCtx (by decide),
   single_line_no_newline.2.1 [strOf "(", strOf ")"] [] defaultCtx (by simp) (by decide),
   single_line_no_newline.2.2.1 [strOf "(", strOf ")"] [] defaultCtx (by simp) (by decide),
   single_line_no_newline.2.2.2 (strOf ", ") false [] defaultCtx (by simp) (by decide)⟩

/-- Claim C2: rendering terminates for every value graph (the driver
render always produces a result); a composite revisited while still on
the current recursive path renders as the circular sentinel; the
circular example of the test suite renders with both self-references
replaced; and a value reachable twice through non-overlapping paths
renders fully both times (the ancestry list passed to a child never
retains identities from completed sibling renders, the recursion being
add-on-entry and discard-on-exit). -/
theorem stringify_cycle_termination :
    (∀ (heap : List HeapObject) (visited : List Nat) (v : JSValue) (ctx : RenderCtx),
      ∃ r, renderV heap visited v ctx = some r) ∧
    (∀ (heap : List HeapObject) (visited : List Nat) (a : Nat) (ctx : RenderCtx),
      a ∈ visited →
        renderV heap visited (.ref a) ctx = some (textCore (strOf "<circular>") ctx)) ∧
    stringifyJS heapCircular (.ref 0) defaultCtx
      = some (strOf "[<circular>, \x27b\x27, [\x27c\x27, <circular>]]") ∧
    stringifyJS heapShared (.ref 0) defaultCtx = some (strOf "[[1], [1]]") := by
  refine ⟨?_, ?_, by decide, by decide⟩
  · intro heap visited v ctx
    exact Option.isSome_iff_exists.mp
      (renderVF_isSome (unvisitedCount heap visited + 1) heap visited v ctx (by omega))
  · intro heap visited a ctx ha
    simp [renderV, renderVF, ha]

/-- Witness for the C2 theorem: the sentinel conjunct applied with the
address already on the ancestry list. -/
theorem stringify_cycle_termination_witness :
    renderV heapCircular [0] (.ref 0) defaultCtx
      = some (textCore (strOf "<circular>") defaultCtx) :=
  stringify_cycle_termination.2.1 heapCircular [0] 0 defaultCtx (by decide)

/-- Claim C6: a sorting list node joins its items in the stable
lexicographic order of their rendered content strings: it renders the
same as a non-sorting list over the pre-sorted items, the sorted
contents are pairwise ordered, items with equal content keep their
original relative order (filtering by any fixed content string is
unchanged by the sort), and rendering is invariant under permutation of
the items. -/
theorem list_sort_deterministic :
    ∀ (joiner : Str) (rendered rendered2 : List RenderResult) (ctx : RenderCtx) (c : Str),
      listCore joiner true rendered ctx = listCore joiner false (sortByContent rendered) ctx ∧
      ((sortByContent rendered).map (fun r => r.content)).Pairwise
        (fun x y => strLe x y = true) ∧
      (sortByContent rendered).filter (fun x => decide (x.content = c))
        = rendered.filter (fun x => decide (x.content = c)) ∧
      (rendered.Perm rendered2 →
        listCore joiner true rendered ctx = listCore joiner true rendered2 ctx) := by
  intro joiner rendered rendered2 ctx c
  refine ⟨rfl, ?_, sortByContent_filter c rendered, fun h => listCore_sort_perm_eq h⟩
  exact (List.pairwise_map).mpr (by simpa [contentLE] using sortByContent_pairwise rendered)

/-- Witness for the C6 theorem: the permutation conjunct applied to two
concrete permuted item lists. -/
theorem list_sort_deterministic_witness :
    listCore (strOf ", ") true
        [textCore (strOf "b") defaultCtx, textCore (strOf "a") defaultCtx] defaultCtx
      = listCore (strOf ", ") true
        [textCore (strOf "a") defaultCtx, textCore (strOf "b") defaultCtx] defaultCtx :=
  (list_sort_deterministic (strOf ", ")
    [textCore (strOf "b") defaultCtx, textCore (strOf "a") defaultCtx]
    [textCore (strOf "a") defaultCtx, textCore (strOf "b") defaultCtx]
    defaultCtx []).2.2.2 (List.Perm.swap _ _ _)

/-- Claim C7, counterexample: the default formatter sorts plain-object
entries by their rendered content strings, so an object built with keys
in the order b, a renders with a first, not in insertion order as the
claim states. -/
theorem object_entries_sorted_counterexample :
    stringifyJS heapObjPair (.ref 0) defaultCtx = some (strOf "\x7b a: 2, b: 1 \x7d") ∧
    strOf "\x7b a: 2, b: 1 \x7d" ≠ strOf "\x7b b: 1, a: 2 \x7d" := by
  decide

/-- Claim C7, amended: the default formatter renders a plain key/value
object through objectLike, producing the braced comma-joined list of
key: value entries with the entries sorted by their rendered content
strings; consequently the output is independent of the insertion order
of the entries. The third conjunct renders the three-key object of the
test suite, showing the quoted key first rather than insertion order. -/
theorem object_render_sorted :
    (∀ (fuel : Nat) (heap : List HeapObject) (visited : List Nat) (a : Nat)
        (entries : List (Str × JSValue)) (ctx : RenderCtx),
      a ∉ visited → heap[a]? = some (.plainObj entries) →
      renderVF (fuel + 1) heap visited (.ref a) ctx =
        objectLikeShape (renderVF fuel heap (a :: visited)) (stringifyKey heap)
          (entries.map (fun kv => (.str kv.1, kv.2))) ctx) ∧
    (∀ (render : JSValue → RenderCtx → Option RenderResult) (keyText : JSValue → Str)
        (es1 es2 : List (JSValue × JSValue)) (ctx : RenderCtx),
      es1.Perm es2 →
        objectLikeShape render keyText es1 ctx = objectLikeShape render keyText es2 ctx) ∧
    stringifyJS heapObjThree (.ref 0) defaultCtx
      = some (strOf "\x7b \x27#b\x27: 2, a: 1, c: 3 \x7d") := by
  refine ⟨?_, fun render keyText es1 es2 ctx h => objectLikeShape_perm render keyText ctx h,
    by decide⟩
  intro fuel heap visited a entries ctx hv hobj
  simp [renderVF, hv, hobj]

/-- Witness for the amended C7 theorem at concrete inputs. -/
theorem object_render_sorted_witness :
    renderVF 2 heapObjPair [] (.ref 0) defaultCtx =
      objectLikeShape (renderVF 1 heapObjPair [0]) (stringifyKey heapObjPair)
        ([(strOf "b", JSValue.num 1), (strOf "a", JSValue.num 2)].map
          (fun kv => (.str kv.1, kv.2))) defaultCtx ∧
    objectLikeShape (renderVF 1 heapObjPair [0]) (stringifyKey heapObjPair)
        [(.str (strOf "b"), .num 1), (.str (strOf "a"), .num 2)] defaultCtx
      = objectLikeShape (renderVF 1 heapObjPair [0]) (stringifyKey heapObjPair)
        [(.str (strOf "a"), .num 2), (.str (strOf "b"), .num 1)] defaultCtx :=
  ⟨object_render_sorted.1 1 heapObjPair [] 0
      [(strOf "b", JSValue.num 1), (strOf "a", JSValue.num 2)] defaultCtx
      (by decide) (by decide),
   object_render_sorted.2.1 (renderVF 1 heapObjPair [0]) (stringifyKey heapObjPair)
      [(.str (strOf "b"), .num 1), (.str (strOf "a"), .num 2)]
      [(.str (strOf "a"), .num 2), (.str (strOf "b"), .num 1)] defaultCtx
      (List.Perm.swap _ _ _)⟩

/-- Claim C10: a function value is a composite for the cycle check (a
revisit on the current path renders as the circular sentinel), and a
function that is not itself a node renders through the same objectLike
plain-object branch as a plain key/value object, over its enumerable own
properties; an ordinary function with no such properties renders as the
empty braced form, and a self-referential property renders with the
sentinel. -/
theorem function_renders_as_plain_object :
    (∀ (fuel : Nat) (heap : List HeapObject) (visited : List Nat) (a : Nat) (ctx : RenderCtx),
      a ∈ visited →
        renderVF (fuel + 1) heap visited (.ref a) ctx
          = some (textCore (strOf "<circular>") ctx)) ∧
    (∀ (fuel : Nat) (heap : List HeapObject) (visited : List Nat) (a : Nat)
        (entries : List (Str × JSValue)) (ctx : RenderCtx),
      a ∉ visited → heap[a]? = some (.func entries) →
      renderVF (fuel + 1) heap visited (.ref a) ctx =
        objectLikeShape (renderVF fuel heap (a :: visited)) (stringifyKey heap)
          (entries.map (fun kv => (.str kv.1, kv.2))) ctx) ∧
    stringifyJS heapFuncEmpty (.ref 0) defaultCtx = some (strOf "\x7b  \x7d") ∧
    stringifyJS heapFuncSelf (.ref 0) defaultCtx = some (strOf "\x7b self: <circular> \x7d") := by
  refine ⟨?_, ?_, by decide, by decide⟩
  · intro fuel heap visited a ctx ha
    simp [renderVF, ha]
  · intro fuel heap visited a entries ctx hv hobj
    simp [renderVF, hv, hobj]

/-- Witness for the C10 theorem at concrete inputs. -/
theorem function_renders_as_plain_object_witness :
    renderVF 2 heapFuncSelf [0] (.ref 0) defaultCtx
      = some (textCore (strOf "<circular>") defaultCtx) ∧
    renderVF 2 heapFuncEmpty [] (.ref 0) defaultCtx =
      objectLikeShape (renderVF 1 heapFuncEmpty [0]) (stringifyKey heapFuncEmpty)
        (([] : List (Str × JSValue)).map (fun kv => (.str kv.1, kv.2))) defaultCtx :=
  ⟨function_renders_as_plain_object.1 1 heapFuncSelf [0] 0 defaultCtx (by decide),
   function_renders_as_plain_object.2.1 1 heapFuncEmpty [] 0 [] defaultCtx
     (by decide) (by decide)⟩

theorem lineSegs_no_terminator :
    ∀ l : Str, (∀ c ∈ l, isLineTerminator c = false) → lineSegs l = [l] := by
  intro l
  induction l with
  | nil => intro _; rfl
  | cons c cs ih =>
    intro h
    have hc : isLineTerminator c = false := h c (by simp)
    have hcs : lineSegs cs = [cs] := ih (fun x hx => h x (by simp [hx]))
    simp [lineSegs, hc, hcs]

theorem reindentLine_no_terminator {min : Nat} {indent l : Str}
    (h : ∀ c ∈ l, isLineTerminator c = false) :
    reindentLine min indent l =
      (if l.take min = List.replicate min ' ' then indent ++ l.drop min else l) := by
  simp [reindentLine, lineSegs_no_terminator l h, reindentSeg]

/-- Claim C5, counterexample: the multiline anchor of the re-indentation
regex also matches after a lone carriage return surviving inside a
remaining line, so the code strips and re-indents again mid-line; the
claim, which only prepends the indent once to each remaining line,
predicts a different content there. -/
theorem text_reindent_midline_counterexample :
    (textCore (strOf "a\nb\rc")
        (RenderCtx.mk (some 120) (strOf "  ") (spaceWithLength 2))).content
      = strOf "a\n  b\r  c" ∧
    strOf "a\n  b\r  c" ≠ strOf "a\n  b\rc" := by
  decide

/-- Claim C5, amended: when the assembled text splits into more than one
line, the render is multiline, the first line is untouched, the strip
count is the minimum leading-space count over the non-blank remaining
lines (a lower bound that is attained when a non-blank remaining line
exists, and zero otherwise); the strip-and-prepend replacement applies
at the start of every remaining line and again after every
line-terminator character surviving inside a remaining line, each
anchored segment starting with that many spaces having them replaced by
the context indent and left unchanged otherwise. A remaining line not
starting with that many spaces is necessarily blank and is left as-is,
and any remaining line free of embedded line terminators is transformed
exactly as the original claim states: the minimum count stripped once
and the indent prepended once. -/
theorem text_multiline_reindent :
    ∀ (s : Str) (ctx : RenderCtx) (first l1 : Str) (ls : List Str),
      splitLines s = first :: l1 :: ls →
      ((textCore s ctx).isMultiline = true ∧
       (∀ l ∈ (l1 :: ls).filter (fun l => !isBlankLine l),
         minIndentSize (l1 :: ls) ≤ indentOfLine l) ∧
       ((l1 :: ls).filter (fun l => !isBlankLine l) ≠ [] →
         ∃ l ∈ (l1 :: ls).filter (fun l => !isBlankLine l),
           indentOfLine l = minIndentSize (l1 :: ls)) ∧
       ((l1 :: ls).filter (fun l => !isBlankLine l) = [] → minIndentSize (l1 :: ls) = 0) ∧
       (textCore s ctx).content = joinLines (first :: (l1 :: ls).map (fun l =>
         ((lineSegs l).map (fun seg =>
           if seg.take (minIndentSize (l1 :: ls))
               = List.replicate (minIndentSize (l1 :: ls)) ' '
           then ctx.indent ++ seg.drop (minIndentSize (l1 :: ls)) else seg)).flatten)) ∧
       (∀ l ∈ l1 :: ls,
         l.take (minIndentSize (l1 :: ls)) ≠ List.replicate (minIndentSize (l1 :: ls)) ' ' →
         isBlankLine l = true) ∧
       (∀ l ∈ l1 :: ls, (∀ c ∈ l, isLineTerminator c = false) →
         reindentLine (minIndentSize (l1 :: ls)) ctx.indent l =
           (if l.take (minIndentSize (l1 :: ls))
               = List.replicate (minIndentSize (l1 :: ls)) ' '
            then ctx.indent ++ l.drop (minIndentSize (l1 :: ls)) else l))) := by
  intro s ctx first l1 ls hsplit
  have htc : textCore s ctx = RenderResult.mk true (joinLines (first :: (l1 :: ls).map
      (reindentLine (minIndentSize (l1 :: ls)) ctx.indent))) := by
    simp only [textCore, hsplit]
    rfl
  refine ⟨by rw [htc], fun l hl => minIndentSize_le hl, fun h => minIndentSize_attained h,
    fun h => minIndentSize_of_no_nonblank h, ?_, ?_, ?_⟩
  · rw [htc]
    rfl
  · intro l hl hne
    by_contra hb
    have hmem : l ∈ (l1 :: ls).filter (fun l => !isBlankLine l) := by
      rw [List.mem_filter]
      exact ⟨hl, by simp [Bool.not_eq_true] at hb ⊢; exact hb⟩
    exact hne (take_of_le_indentOfLine _ l (minIndentSize_le hmem))
  · intro l _ h
    exact reindentLine_no_terminator h

/-- Witness for the amended C5 theorem: the split hypothesis discharged
at a concrete two-line text, and the terminator-free conjunct applied to
its remaining line. -/
theorem text_multiline_reindent_witness :
    (textCore (strOf "a\n  b") defaultCtx).isMultiline = true ∧
    reindentLine (minIndentSize [strOf "  b"]) defaultCtx.indent (strOf "  b") =
      (if (strOf "  b").take (minIndentSize [strOf "  b"])
          = List.replicate (minIndentSize [strOf "  b"]) ' '
       then defaultCtx.indent ++ (strOf "  b").drop (minIndentSize [strOf "  b"]) else strOf "  b") :=
  ⟨(text_multiline_reindent (strOf "a\n  b") defaultCtx (strOf "a") (strOf "  b") []
      (by decide)).1,
   (text_multiline_reindent (strOf "a\n  b") defaultCtx (strOf "a") (strOf "  b") []
      (by decide)).2.2.2.2.2.2 (strOf "  b") (by simp) (by decide)⟩
